import Mathlib

/-!
Verification of the pisms SMS tool (src/pisms/__init__.py) against its
natural-language specification.  The Python source is shallowly embedded:
text is modelled as List Char, Unicode code points as Nat, timestamps as
Int, serial input as the list of bytes that the transport would deliver
before the read timeout elapses, and each method of the App class becomes
a pure Lean function over those inputs.
-/

namespace Pisms

/-! ## String machinery

Python's substring test (the binary operator on strings used in
at_command as well as pyserial's read_until stopping rule) is modelled on
List Char. -/

/-- Embeds the check that the first list is an initial segment of the
second list. -/
def startsWithSeq : List Char → List Char → Bool
  | [], _ => true
  | _ :: _, [] => false
  | a :: as, b :: bs => a = b && startsWithSeq as bs

/-- Embeds the Python substring test needle in hay on List Char. -/
def containsSeq (needle : List Char) : List Char → Bool
  | [] => startsWithSeq needle []
  | c :: rest => startsWithSeq needle (c :: rest) || containsSeq needle rest

theorem startsWithSeq_iff (needle hay : List Char) :
    startsWithSeq needle hay = true ↔ ∃ t, hay = needle ++ t := by
  induction needle generalizing hay with
  | nil => simp [startsWithSeq]
  | cons a as ih =>
    cases hay with
    | nil => simp [startsWithSeq]
    | cons b bs =>
      simp only [startsWithSeq, Bool.and_eq_true, decide_eq_true_eq, ih]
      constructor
      · rintro ⟨rfl, t, rfl⟩
        exact ⟨t, rfl⟩
      · rintro ⟨t, ht⟩
        simp only [List.cons_append, List.cons.injEq] at ht
        exact ⟨ht.1.symm, t, ht.2⟩

theorem containsSeq_iff (needle hay : List Char) :
    containsSeq needle hay = true ↔ ∃ l₁ l₂, hay = l₁ ++ needle ++ l₂ := by
  induction hay with
  | nil =>
    simp only [containsSeq, startsWithSeq_iff]
    constructor
    · rintro ⟨t, ht⟩
      exact ⟨[], t, by simpa using ht⟩
    · rintro ⟨l₁, l₂, h⟩
      have hn : needle = [] := by
        rcases l₁ with _ | ⟨x, xs⟩ <;> rcases needle with _ | ⟨y, ys⟩ <;> simp_all
      exact ⟨[], by simp [hn]⟩
  | cons c cs ih =>
    simp only [containsSeq, Bool.or_eq_true, startsWithSeq_iff, ih]
    constructor
    · rintro (⟨t, ht⟩ | ⟨l₁, l₂, rfl⟩)
      · exact ⟨[], t, by simpa using ht⟩
      · exact ⟨c :: l₁, l₂, by simp⟩
    · rintro ⟨l₁, l₂, h⟩
      cases l₁ with
      | nil => exact Or.inl ⟨l₂, by simpa using h⟩
      | cons x xs =>
        simp only [List.cons_append, List.cons.injEq] at h
        exact Or.inr ⟨xs, l₂, h.2⟩

/-! ## AT command engine (App.at_command)

The engine discards stale input, writes an ESC byte and the command, then
reads with pyserial's read_until: bytes are consumed one at a time until
the expected terminator occurs in the accumulated bytes or the read
timeout elapses.  The serial input is modelled as the list of bytes that
would arrive before the timeout; readUntil returns exactly the bytes the
engine accumulates. -/

/-- Embeds pyserial read_until: consume characters from the available
stream one at a time, stopping as soon as the terminator occurs in the
accumulated characters; on exhaustion (timeout) return everything read. -/
def readUntilAux (back : List Char) (acc : List Char) : List Char → List Char
  | [] => acc
  | c :: rest =>
    if containsSeq back (acc ++ [c]) then acc ++ [c]
    else readUntilAux back (acc ++ [c]) rest

def readUntil (back stream : List Char) : List Char :=
  readUntilAux back [] stream

/-- Result of one AT exchange: the success flag and the raw response. -/
structure AtResult where
  success : Bool
  response : List Char
deriving DecidableEq

/-- Embeds App.at_command: the response is whatever read_until
accumulated, and success is the Python substring test of the expected
terminator against that response (the command text and the quiet flag
only affect logging and are omitted). -/
def at_command (back : List Char) (stream : List Char) : AtResult :=
  let response := readUntil back stream
  if containsSeq back response then ⟨true, response⟩ else ⟨false, response⟩

theorem readUntilAux_shape (back : List Char) :
    ∀ (stream acc : List Char), ∃ p q,
      stream = p ++ q ∧ readUntilAux back acc stream = acc ++ p := by
  intro stream
  induction stream with
  | nil => exact fun acc => ⟨[], [], by simp [readUntilAux]⟩
  | cons c rest ih =>
    intro acc
    by_cases h : containsSeq back (acc ++ [c]) = true
    · exact ⟨[c], rest, by simp [readUntilAux, h]⟩
    · obtain ⟨p, q, hpq, hr⟩ := ih (acc ++ [c])
      refine ⟨c :: p, q, by simp [hpq], ?_⟩
      simp only [readUntilAux, h, if_false]
      simp [hr]

theorem readUntilAux_mono (back : List Char) :
    ∀ (stream acc : List Char), containsSeq back (acc ++ stream) = true →
      containsSeq back (readUntilAux back acc stream) = true := by
  intro stream
  induction stream with
  | nil =>
    intro acc h
    rw [List.append_nil] at h
    simp only [readUntilAux]
    exact h
  | cons c rest ih =>
    intro acc h
    by_cases hc : containsSeq back (acc ++ [c]) = true
    · simp [readUntilAux, hc]
    · simp only [readUntilAux, hc, if_false]
      exact ih (acc ++ [c]) (by simpa using h)

/-- Claim C1: at_command returns success exactly when the expected
terminator is a substring of the accumulated response, it returns the
accumulated response itself in both cases, and success holds exactly when
the terminator occurs somewhere in the bytes available before the
timeout. -/
theorem at_command_spec (back stream : List Char) :
    ((at_command back stream).success = true ↔
      ∃ l₁ l₂, (at_command back stream).response = l₁ ++ back ++ l₂)
    ∧ (at_command back stream).response = readUntil back stream
    ∧ ((at_command back stream).success = true ↔
      ∃ l₁ l₂, stream = l₁ ++ back ++ l₂) := by
  have hresp : (at_command back stream).response = readUntil back stream := by
    unfold at_command
    by_cases h : containsSeq back (readUntil back stream) = true <;> simp [h]
  have hsucc : (at_command back stream).success =
      containsSeq back (readUntil back stream) := by
    unfold at_command
    by_cases h : containsSeq back (readUntil back stream) = true <;> simp [h]
  refine ⟨?_, hresp, ?_⟩
  · rw [hsucc, hresp]
    exact containsSeq_iff back (readUntil back stream)
  · rw [hsucc]
    constructor
    · intro h
      obtain ⟨l₁, l₂, hl⟩ := (containsSeq_iff _ _).mp h
      obtain ⟨p, q, hpq, hr⟩ := readUntilAux_shape back stream []
      refine ⟨l₁, l₂ ++ q, ?_⟩
      rw [hpq]
      rw [readUntil, hr] at hl
      simp only [List.nil_append] at hl
      rw [hl]
      simp
    · intro h
      have hc : containsSeq back stream = true := (containsSeq_iff _ _).mpr h
      exact readUntilAux_mono back stream [] (by simpa using hc)

/-! ## Network registration monitor (App.check_connection)

The loop polls at_command with the query AT+CREG? once per second until
the deadline, scanning each response with the regular expression
for a +CREG header followed by one whitespace character, a digit, a
comma, and the captured status digit.  Real time is abstracted: the trace
argument lists, per polling attempt, the bytes the transport would
deliver for that attempt, and its length is the number of whole seconds
left before the deadline. -/

def okTerm : List Char := ['O', 'K']

/-- Embeds the character class of the Python regular expression escape
for whitespace (space, tab, newline, carriage return, vertical tab, form
feed). -/
def isSpaceChar (c : Char) : Bool :=
  c = ' ' || c = '\t' || c = '\n' || c = '\r' || c = '\x0b' || c = '\x0c'

/-- Embeds one anchored attempt of the +CREG regular expression at the
head of the list: the literal header, one whitespace, one digit, a
comma, and the captured status digit. -/
def cregAt (l : List Char) : Option Char :=
  match l with
  | '+' :: 'C' :: 'R' :: 'E' :: 'G' :: ':' :: w :: d1 :: ',' :: d2 :: _ =>
    if isSpaceChar w && d1.isDigit && d2.isDigit then some d2 else none
  | _ => none

/-- Embeds re.search for the +CREG pattern: try the anchored match at
every position left to right and return the first captured status
digit. -/
def cregStatus : List Char → Option Char
  | [] => none
  | c :: rest =>
    match cregAt (c :: rest) with
    | some d => some d
    | none => cregStatus rest

/-- Embeds the body of one polling attempt: the AT exchange must succeed
and the first captured registration status digit must lie in the
accepted set of the source, the four digits 1, 5, 6 and 7. -/
def regAccepted (stream : List Char) : Bool :=
  let r := at_command okTerm stream
  r.success &&
    (match cregStatus r.response with
     | some d => d = '1' || d = '5' || d = '6' || d = '7'
     | none => false)

def noNetworkMsg : List Char := "No mobile network connection".toList

/-- Embeds App.check_connection over the trace of per-attempt input:
each failed attempt sleeps one second and retries, an accepted attempt
returns at once (the Nat counts the attempts consumed), and an exhausted
trace is the elapsed deadline, raising RuntimeError with the source's
message. -/
def check_connection : List (List Char) → Except (List Char) Nat
  | [] => Except.error noNetworkMsg
  | s :: rest =>
    if regAccepted s then Except.ok 1
    else
      match check_connection rest with
      | Except.ok n => Except.ok (n + 1)
      | Except.error e => Except.error e

theorem check_connection_cons_pos (s : List Char) (rest : List (List Char))
    (h : regAccepted s = true) :
    check_connection (s :: rest) = Except.ok 1 := by
  simp [check_connection, h]

theorem check_connection_cons_neg (s : List Char) (rest : List (List Char))
    (h : regAccepted s = false) :
    check_connection (s :: rest) =
      match check_connection rest with
      | Except.ok n => Except.ok (n + 1)
      | Except.error e => Except.error e := by
  simp [check_connection, h]

theorem check_connection_pos (tr : List (List Char)) :
    ∀ n, check_connection tr = Except.ok n → 1 ≤ n := by
  induction tr with
  | nil => intro n h; simp [check_connection] at h
  | cons s rest ih =>
    intro n h
    by_cases hs : regAccepted s = true
    · rw [check_connection_cons_pos s rest hs] at h
      simp only [Except.ok.injEq] at h
      omega
    · rw [check_connection_cons_neg s rest (by simpa using hs)] at h
      cases hrec : check_connection rest with
      | ok m => rw [hrec] at h; simp only [Except.ok.injEq] at h; omega
      | error e => rw [hrec] at h; simp at h

/-- Claim C4: check_connection succeeds exactly when some polled
response before the deadline carries an accepted registration status; a
success returns immediately after the first accepted attempt, consuming
no later polls; and when no attempt is accepted it fails with the
network-unavailable error, which the caller does not catch. -/
theorem check_connection_spec (tr : List (List Char)) :
    ((∃ s ∈ tr, regAccepted s = true) ↔ ∃ n, check_connection tr = Except.ok n)
    ∧ (∀ n, check_connection tr = Except.ok n →
        (∃ s, tr[n - 1]? = some s ∧ regAccepted s = true)
        ∧ ∀ s ∈ tr.take (n - 1), regAccepted s = false)
    ∧ ((∀ s ∈ tr, regAccepted s = false) →
        check_connection tr = Except.error noNetworkMsg) := by
  induction tr with
  | nil =>
    refine ⟨by simp [check_connection], ?_, by simp [check_connection]⟩
    intro n h
    simp [check_connection] at h
  | cons s rest ih =>
    obtain ⟨ih1, ih2, ih3⟩ := ih
    by_cases hs : regAccepted s = true
    · refine ⟨⟨fun _ => ⟨1, check_connection_cons_pos s rest hs⟩, fun _ => ⟨s, by simp, hs⟩⟩, ?_, ?_⟩
      · intro n h
        rw [check_connection_cons_pos s rest hs] at h
        simp only [Except.ok.injEq] at h
        subst h
        exact ⟨⟨s, by simp, hs⟩, by simp⟩
      · intro hall
        exact absurd hs (by simp [hall s (by simp)])
    · have hs' : regAccepted s = false := by simpa using hs
      rw [check_connection_cons_neg s rest hs']
      cases hrec : check_connection rest with
      | ok m =>
        have hm : 1 ≤ m := check_connection_pos rest m hrec
        obtain ⟨⟨t, ht, hta⟩, hpre⟩ := ih2 m hrec
        refine ⟨?_, ?_, ?_⟩
        · constructor
          · intro _
            exact ⟨m + 1, rfl⟩
          · intro _
            exact ⟨t, List.mem_cons_of_mem s (List.getElem?_mem ht), hta⟩
        · intro n h
          simp only [Except.ok.injEq] at h
          subst h
          have hsub : m + 1 - 1 = (m - 1) + 1 := by omega
          refine ⟨⟨t, ?_, hta⟩, ?_⟩
          · rw [hsub, List.getElem?_cons_succ]
            exact ht
          · intro u hu
            rw [hsub, List.take_succ_cons] at hu
            rcases List.mem_cons.mp hu with rfl | hur
            · exact hs'
            · exact hpre u hur
        · intro hall
          have := ih1.mpr ⟨m, hrec⟩
          obtain ⟨t, htr, hta⟩ := this
          exact absurd hta (by simp [hall t (List.mem_cons_of_mem s htr)])
      | error e =>
        refine ⟨?_, ?_, ?_⟩
        · constructor
          · rintro ⟨t, ht, hta⟩
            rcases List.mem_cons.mp ht with rfl | htr
            · exact absurd hta (by simp [hs'])
            · obtain ⟨m, hok⟩ := ih1.mp ⟨t, htr, hta⟩
              rw [hok] at hrec
              exact absurd hrec (by simp)
          · rintro ⟨n, h⟩
            simp at h
        · intro n h
          simp at h
        · intro hall
          have he : check_connection rest = Except.error noNetworkMsg :=
            ih3 fun t htr => hall t (List.mem_cons_of_mem s htr)
          rw [he] at hrec
          simp only [Except.error.injEq] at hrec
          rw [hrec]

def cregOkStream : List Char := "+CREG: 0,1\r\nOK".toList

def cregBadStream : List Char := "ERROR".toList

theorem check_connection_spec_witness :
    ((∃ s, [cregBadStream, cregOkStream][2 - 1]? = some s ∧ regAccepted s = true)
      ∧ ∀ s ∈ [cregBadStream, cregOkStream].take (2 - 1), regAccepted s = false)
    ∧ check_connection [cregBadStream] = Except.error noNetworkMsg :=
  ⟨(check_connection_spec [cregBadStream, cregOkStream]).2.1 2 (by rfl),
   (check_connection_spec [cregBadStream]).2.2 (by decide)⟩

/-! ## Power sequencer (App.power_up / App.power_down)

GPIO writes and sleeps are modelled as an explicit effect list; the
powered flag is the Boolean the source stores on the App object,
initially False.  An unset power pin is the integer 0, which is falsy in
Python, exactly as the source's default argument value. -/

inductive PinLevel
  | high
  | low
deriving DecidableEq

inductive Effect
  | output (pin : Nat) (level : PinLevel)
  | sleep (seconds : Nat)
  | resetInput
  | resetOutput
deriving DecidableEq

structure PowerCfg where
  pwrpin : Nat
  pwrup : Nat
  pwrdown : Nat
  pwrlow : Bool
deriving DecidableEq

/-- Embeds the polarity computed once in parse_args from the active-low
flag. -/
def activeLevel (cfg : PowerCfg) : PinLevel :=
  if cfg.pwrlow then PinLevel.low else PinLevel.high

def inactiveLevel (cfg : PowerCfg) : PinLevel :=
  if cfg.pwrlow then PinLevel.high else PinLevel.low

/-- App.__init__ sets the powered flag to False. -/
def initialPowered : Bool := false

/-- Embeds App.power_up: skip everything when no power pin is set;
otherwise either pulse the pin active for the configured duration or
hold it active, mark the powered flag, and flush both serial buffers. -/
def power_up (cfg : PowerCfg) (powered : Bool) : Bool × List Effect :=
  if cfg.pwrpin = 0 then (powered, [])
  else if cfg.pwrup ≠ 0 then
    (true, [Effect.output cfg.pwrpin (activeLevel cfg), Effect.sleep cfg.pwrup,
            Effect.output cfg.pwrpin (inactiveLevel cfg), Effect.resetInput,
            Effect.resetOutput])
  else
    (true, [Effect.output cfg.pwrpin (activeLevel cfg), Effect.resetInput,
            Effect.resetOutput])

/-- Embeds App.power_down: return at once when the powered flag is not
set; otherwise either pulse the pin and settle for two seconds, or drop
the pin to the inactive level. -/
def power_down (cfg : PowerCfg) (powered : Bool) : List Effect :=
  if powered = false then []
  else if cfg.pwrdown ≠ 0 then
    [Effect.output cfg.pwrpin (activeLevel cfg), Effect.sleep cfg.pwrdown,
     Effect.output cfg.pwrpin (inactiveLevel cfg), Effect.sleep 2]
  else [Effect.output cfg.pwrpin (inactiveLevel cfg)]

/-- Claim C5: power_down performs no effect at all (so no pin write and
no sleep) whenever the powered flag was never set: the flag starts
False, power_up with no configured pin leaves it False and itself
performs no effect, and power_down on an unset flag is the empty effect
list. -/
theorem power_down_noop (cfg : PowerCfg) (powered : Bool)
    (h : powered = false) :
    power_down cfg powered = []
    ∧ power_down cfg initialPowered = []
    ∧ (cfg.pwrpin = 0 →
        (power_up cfg powered).1 = false
        ∧ (power_up cfg powered).2 = []
        ∧ power_down cfg (power_up cfg powered).1 = []) := by
  subst h
  refine ⟨by simp [power_down], by simp [power_down, initialPowered], ?_⟩
  intro hp
  simp [power_up, power_down, hp]

theorem power_down_noop_witness :
    power_down ⟨0, 3, 3, false⟩ false = []
    ∧ power_down ⟨0, 3, 3, false⟩ initialPowered = []
    ∧ (PowerCfg.pwrpin ⟨0, 3, 3, false⟩ = 0 →
        (power_up ⟨0, 3, 3, false⟩ false).1 = false
        ∧ (power_up ⟨0, 3, 3, false⟩ false).2 = []
        ∧ power_down ⟨0, 3, 3, false⟩ (power_up ⟨0, 3, 3, false⟩ false).1 = []) :=
  power_down_noop ⟨0, 3, 3, false⟩ false rfl

/-! ## Surrogate-pair handling (_surrogatepair, App.with_surrogates, and
the text normalization in App.list_messages)

Message text is modelled as the list of Unicode code points of the
Python string.  App.with_surrogates substitutes, for every code point in
the astral range of the module's regular expression, the two UTF-16
code units produced by _surrogatepair.  App.list_messages then maps each
stored text through encode with the surrogatepass handler followed by a
strict UTF-16 decode; the byte order mark added by the encoder is
consumed again by the decoder, so the net effect on code points is the
unit-building encode composed with the strict pairing decode modelled
here. -/

/-- Embeds _surrogatepair: split an astral code point into its high and
low UTF-16 surrogate units (the first two and last two bytes of the
little-endian UTF-16 encoding). -/
def surrogatePairOf (c : Nat) : List Nat :=
  [0xD800 + (c - 0x10000) / 0x400, 0xDC00 + (c - 0x10000) % 0x400]

/-- Embeds App.with_surrogates: the regular expression substitution that
replaces every code point in the range 0x10000 to 0x10FFFF by its
surrogate pair and keeps every other code point. -/
def with_surrogates : List Nat → List Nat
  | [] => []
  | c :: rest =>
    (if 0x10000 ≤ c ∧ c ≤ 0x10FFFF then surrogatePairOf c else [c])
      ++ with_surrogates rest

/-- Embeds the encode step with the surrogatepass handler: astral code
points become their surrogate pair of units, every 16-bit code point
(lone surrogates included, which is what surrogatepass permits) becomes
its own unit. -/
def utf16EncodeSP : List Nat → List Nat
  | [] => []
  | c :: rest =>
    (if 0x10000 ≤ c then surrogatePairOf c else [c]) ++ utf16EncodeSP rest

/-- Embeds the strict UTF-16 decode of a unit list: a high surrogate
must be followed by a low surrogate and the pair combines into one
astral code point, an unpaired surrogate is a decode error (none), and
any other unit decodes to itself. -/
def utf16Decode : List Nat → Option (List Nat)
  | [] => some []
  | [u] =>
    if 0xD800 ≤ u ∧ u ≤ 0xDFFF then none
    else some [u]
  | u :: l :: rest2 =>
    if 0xD800 ≤ u ∧ u ≤ 0xDBFF then
      if 0xDC00 ≤ l ∧ l ≤ 0xDFFF then
        (utf16Decode rest2).map
          fun t => (0x10000 + (u - 0xD800) * 0x400 + (l - 0xDC00)) :: t
      else none
    else if 0xDC00 ≤ u ∧ u ≤ 0xDFFF then none
    else (utf16Decode (l :: rest2)).map fun t => u :: t

theorem utf16Decode_unit (u : Nat) (rest : List Nat)
    (hu : ¬ (0xD800 ≤ u ∧ u ≤ 0xDFFF)) :
    utf16Decode (u :: rest) = (utf16Decode rest).map fun t => u :: t := by
  cases rest with
  | nil =>
    simp only [utf16Decode]
    rw [if_neg hu]
    rfl
  | cons l rest2 =>
    simp only [utf16Decode]
    rw [if_neg (by omega), if_neg (by omega)]

theorem utf16Decode_pair (u l : Nat) (rest2 : List Nat)
    (hu : 0xD800 ≤ u ∧ u ≤ 0xDBFF) (hl : 0xDC00 ≤ l ∧ l ≤ 0xDFFF) :
    utf16Decode (u :: l :: rest2)
      = (utf16Decode rest2).map
          fun t => (0x10000 + (u - 0xD800) * 0x400 + (l - 0xDC00)) :: t := by
  simp only [utf16Decode]
  rw [if_pos hu, if_pos hl]

/-- Claim C6: for every message text of Unicode scalar values (no lone
surrogates), including texts with code points beyond the 16-bit range,
the sending-side surrogate substitution followed by the listing-side
surrogatepass encode and strict UTF-16 decode returns the original text
unchanged. -/
theorem surrogate_roundtrip (text : List Nat)
    (h : ∀ c ∈ text, c ≤ 0x10FFFF ∧ ¬ (0xD800 ≤ c ∧ c ≤ 0xDFFF)) :
    utf16Decode (utf16EncodeSP (with_surrogates text)) = some text := by
  induction text with
  | nil => rfl
  | cons c rest ih =>
    have hc := h c (List.mem_cons_self c rest)
    have hrest := ih fun x hx => h x (List.mem_cons_of_mem c hx)
    by_cases hastral : 0x10000 ≤ c
    · have hle : c ≤ 0x10FFFF := hc.1
      have hws : with_surrogates (c :: rest)
          = (0xD800 + (c - 0x10000) / 0x400)
            :: (0xDC00 + (c - 0x10000) % 0x400) :: with_surrogates rest := by
        simp only [with_surrogates]
        rw [if_pos ⟨hastral, hle⟩]
        rfl
      have hdiv : (c - 0x10000) / 0x400 ≤ 0x3FF := by omega
      have hmod : (c - 0x10000) % 0x400 ≤ 0x3FF := by omega
      have henc : utf16EncodeSP (with_surrogates (c :: rest))
          = (0xD800 + (c - 0x10000) / 0x400)
            :: (0xDC00 + (c - 0x10000) % 0x400)
            :: utf16EncodeSP (with_surrogates rest) := by
        rw [hws]
        simp only [utf16EncodeSP]
        rw [if_neg (by omega), if_neg (by omega)]
        rfl
      rw [henc, utf16Decode_pair _ _ _ (by omega) (by omega), hrest]
      simp only [Option.map_some']
      have hval : 0x10000 + ((0xD800 + (c - 0x10000) / 0x400) - 0xD800) * 0x400
          + ((0xDC00 + (c - 0x10000) % 0x400) - 0xDC00) = c := by omega
      rw [hval]
    · have hws : with_surrogates (c :: rest) = c :: with_surrogates rest := by
        simp only [with_surrogates]
        rw [if_neg (by omega)]
        rfl
      have henc : utf16EncodeSP (with_surrogates (c :: rest))
          = c :: utf16EncodeSP (with_surrogates rest) := by
        rw [hws]
        simp only [utf16EncodeSP]
        rw [if_neg (by omega)]
        rfl
      rw [henc, utf16Decode_unit _ _ (by omega), hrest]
      rfl

theorem surrogate_roundtrip_witness :
    (∀ c ∈ [0x48, 0x1F600, 0x10FFFF], c ≤ 0x10FFFF ∧ ¬ (0xD800 ≤ c ∧ c ≤ 0xDFFF))
    ∧ utf16Decode (utf16EncodeSP (with_surrogates [0x48, 0x1F600, 0x10FFFF]))
        = some [0x48, 0x1F600, 0x10FFFF] :=
  ⟨by decide, surrogate_roundtrip [0x48, 0x1F600, 0x10FFFF] (by decide)⟩

/-! ## Fragment reassembler (App.collect_fragments)

A decoded fragment dict carries the storage index, timestamp, sender,
text, and the three concatenation fields reference, sequence and count;
other metadata keys of the decoded dict are abstracted into the sender
field.  The open fragment map is a Python dict keyed by reference, which
preserves insertion order, modelled as an association list.  A
synthesized message is the dict of the last sorted member with the three
concatenation keys deleted and the text replaced. -/

structure FragRec where
  idx : Nat
  date : Int
  sender : Nat
  text : List Nat
  ref : Nat
  seq : Nat
  cnt : Nat
deriving DecidableEq

structure MsgRec where
  idx : Nat
  date : Int
  sender : Nat
  text : List Nat
deriving DecidableEq

/-- Embeds one stable insertion into a list already sorted by sequence:
the new element goes before the first member whose sequence is not
smaller, so members with equal sequence keep their relative order. -/
def insertBySeq (x : FragRec) : List FragRec → List FragRec
  | [] => [x]
  | y :: ys => if y.seq < x.seq then y :: insertBySeq x ys else x :: y :: ys

/-- Embeds the Python stable ascending in-place sort on the sequence
key; a stable ascending sort is unique, so this insertion sort returns
the same list as the source's sort call. -/
def sortBySeq : List FragRec → List FragRec
  | [] => []
  | x :: xs => insertBySeq x (sortBySeq xs)

theorem insertBySeq_perm (x : FragRec) (l : List FragRec) :
    (insertBySeq x l).Perm (x :: l) := by
  induction l with
  | nil => exact List.Perm.refl [x]
  | cons y ys ih =>
    by_cases h : y.seq < x.seq
    · simp only [insertBySeq, if_pos h]
      exact (ih.cons y).trans (List.Perm.swap x y ys)
    · simp only [insertBySeq, if_neg h]
      exact List.Perm.refl _

theorem sortBySeq_perm (l : List FragRec) : (sortBySeq l).Perm l := by
  induction l with
  | nil => exact List.Perm.refl []
  | cons x xs ih =>
    exact (insertBySeq_perm x (sortBySeq xs)).trans (ih.cons x)

theorem insertBySeq_sorted (x : FragRec) (l : List FragRec)
    (h : List.Pairwise (fun a b => a.seq ≤ b.seq) l) :
    List.Pairwise (fun a b => a.seq ≤ b.seq) (insertBySeq x l) := by
  induction l with
  | nil => simp [insertBySeq]
  | cons y ys ih =>
    rcases List.pairwise_cons.mp h with ⟨hy, hys⟩
    by_cases hcmp : y.seq < x.seq
    · simp only [insertBySeq, if_pos hcmp]
      refine List.pairwise_cons.mpr ⟨?_, ih hys⟩
      intro z hz
      rcases List.mem_cons.mp ((insertBySeq_perm x ys).mem_iff.mp hz) with rfl | hz'
      · omega
      · exact hy z hz'
    · simp only [insertBySeq, if_neg hcmp]
      refine List.pairwise_cons.mpr ⟨?_, h⟩
      intro z hz
      rcases List.mem_cons.mp hz with rfl | hz'
      · omega
      · exact le_trans (by omega : x.seq ≤ y.seq) (hy z hz')

theorem sortBySeq_sorted (l : List FragRec) :
    List.Pairwise (fun a b => a.seq ≤ b.seq) (sortBySeq l) := by
  induction l with
  | nil => simp [sortBySeq]
  | cons x xs ih => exact insertBySeq_sorted x (sortBySeq xs) ih

theorem sortBySeq_length (l : List FragRec) :
    (sortBySeq l).length = l.length :=
  (sortBySeq_perm l).length_eq

/-- Embeds the per-reference body of the processing loop of
App.collect_fragments: when the number of members equals the count field
of the first-ingested member, sort the members by sequence, concatenate
their texts in that order, collect their storage indices in that order,
and synthesize the message from the last sorted member; otherwise the
set produces nothing. -/
def processSet (mems : List FragRec) : Option (MsgRec × List Nat) :=
  match mems with
  | [] => none
  | m :: _ =>
    if mems.length = m.cnt then
      match (sortBySeq mems).getLast? with
      | some last =>
        some (⟨last.idx, last.date, last.sender,
               ((sortBySeq mems).map FragRec.text).flatten⟩,
              (sortBySeq mems).map FragRec.idx)
      | none => none
    else none

/-- Embeds the ingest branch of App.collect_fragments: append the record
to its reference's list, or open a new list at the end of the dict (a
Python dict appends a fresh key in insertion order). -/
def collect_ingest : List (Nat × List FragRec) → FragRec → List (Nat × List FragRec)
  | [], d => [(d.ref, [d])]
  | (r, ms) :: rest, d =>
    if r = d.ref then (r, ms ++ [d]) :: rest
    else (r, ms) :: collect_ingest rest d

/-- Embeds the processing loop of App.collect_fragments over the dict in
key insertion order, accumulating the synthesized messages and the
deletable storage indices. -/
def collect_process : List (Nat × List FragRec) → List MsgRec × List Nat
  | [] => ([], [])
  | (_, mems) :: rest =>
    match processSet mems with
    | some (msg, idxs) =>
      ((msg :: (collect_process rest).1), idxs ++ (collect_process rest).2)
    | none => collect_process rest

/-- Embeds App.collect_fragments itself: optionally ingest one record,
then, when the process flag is set, run the processing loop and return
its two lists (the Python function returns None otherwise). -/
def collect_fragments (fragments : List (Nat × List FragRec)) (data : Option FragRec)
    (process : Bool) :
    List (Nat × List FragRec) × Option (List MsgRec × List Nat) :=
  let fragments :=
    match data with
    | some d => collect_ingest fragments d
    | none => fragments
  if process then (fragments, some (collect_process fragments)) else (fragments, none)

theorem processSet_isSome (m : FragRec) (tl : List FragRec) :
    (processSet (m :: tl)).isSome = true ↔ (m :: tl).length = m.cnt := by
  constructor
  · intro h
    by_contra hlen
    simp only [processSet, if_neg hlen] at h
    simp at h
  · intro hlen
    have hne : sortBySeq (m :: tl) ≠ [] := by
      intro hnil
      have hl := sortBySeq_length (m :: tl)
      rw [hnil] at hl
      simp at hl
    obtain ⟨last, hlast⟩ := Option.isSome_iff_exists.mp (List.getLast?_isSome.mpr hne)
    simp only [processSet, if_pos hlen, hlast]
    rfl

theorem processSet_eq_of_complete (m : FragRec) (tl : List FragRec)
    (hlen : (m :: tl).length = m.cnt) :
    ∃ last, (sortBySeq (m :: tl)).getLast? = some last
      ∧ processSet (m :: tl)
        = some (⟨last.idx, last.date, last.sender,
                 ((sortBySeq (m :: tl)).map FragRec.text).flatten⟩,
                (sortBySeq (m :: tl)).map FragRec.idx) := by
  have hne : sortBySeq (m :: tl) ≠ [] := by
    intro hnil
    have hl := sortBySeq_length (m :: tl)
    rw [hnil] at hl
    simp at hl
  obtain ⟨last, hlast⟩ := Option.isSome_iff_exists.mp (List.getLast?_isSome.mpr hne)
  refine ⟨last, hlast, ?_⟩
  simp only [processSet, if_pos hlen, hlast]

theorem collect_process_append (l₁ l₂ : List (Nat × List FragRec)) :
    collect_process (l₁ ++ l₂)
      = ((collect_process l₁).1 ++ (collect_process l₂).1,
         (collect_process l₁).2 ++ (collect_process l₂).2) := by
  induction l₁ with
  | nil => simp [collect_process]
  | cons p rest ih =>
    obtain ⟨r, mems⟩ := p
    cases hp : processSet mems with
    | some v =>
      obtain ⟨msg, idxs⟩ := v
      simp [collect_process, hp, ih]
    | none =>
      simp [collect_process, hp, ih]

/-- Claim C2: in a processed fragment map, the set of members m :: tl
held under some reference, all of whose members declare count n, is
emitted exactly when its member total equals n.  When emitted, the
synthesized message's text is the concatenation of member texts in
ascending sequence order (sortBySeq being an ascending-sorted
permutation of the members), its metadata comes from the last member in
that order, every member's slot occurs in the emitted index list, and
the whole map's processing output carries exactly that message and those
indices for this set.  When incomplete, the map's output is as if the
set were absent, so the set contributes no message and no slot. -/
theorem collect_fragments_complete_sets
    (l₁ l₂ : List (Nat × List FragRec)) (ref n : Nat) (m : FragRec)
    (tl : List FragRec) (hcnt : ∀ x ∈ m :: tl, x.cnt = n) :
    ((processSet (m :: tl)).isSome = true ↔ (m :: tl).length = n)
    ∧ (∀ msg idxs, processSet (m :: tl) = some (msg, idxs) →
        (sortBySeq (m :: tl)).Perm (m :: tl)
        ∧ List.Pairwise (fun a b => a.seq ≤ b.seq) (sortBySeq (m :: tl))
        ∧ msg.text = ((sortBySeq (m :: tl)).map FragRec.text).flatten
        ∧ (∃ last, (sortBySeq (m :: tl)).getLast? = some last
            ∧ msg.idx = last.idx ∧ msg.date = last.date
            ∧ msg.sender = last.sender)
        ∧ idxs = (sortBySeq (m :: tl)).map FragRec.idx
        ∧ (∀ x ∈ m :: tl, x.idx ∈ idxs)
        ∧ (collect_fragments (l₁ ++ (ref, m :: tl) :: l₂) none true).2
            = some ((collect_process l₁).1 ++ msg :: (collect_process l₂).1,
                    (collect_process l₁).2 ++ (idxs ++ (collect_process l₂).2)))
    ∧ (processSet (m :: tl) = none →
        (collect_fragments (l₁ ++ (ref, m :: tl) :: l₂) none true).2
          = some (collect_process (l₁ ++ l₂))) := by
  refine ⟨?_, ?_, ?_⟩
  · rw [processSet_isSome, hcnt m (List.mem_cons_self m tl)]
  · intro msg idxs h
    by_cases hlen : (m :: tl).length = m.cnt
    · obtain ⟨last, hlast, heq⟩ := processSet_eq_of_complete m tl hlen
      rw [heq] at h
      simp only [Option.some.injEq, Prod.mk.injEq] at h
      obtain ⟨hmsg, hidxs⟩ := h
      subst hmsg
      subst hidxs
      refine ⟨sortBySeq_perm (m :: tl), sortBySeq_sorted (m :: tl), rfl,
        ⟨last, hlast, rfl, rfl, rfl⟩, rfl, ?_, ?_⟩
      · intro x hx
        exact List.mem_map_of_mem FragRec.idx
          ((sortBySeq_perm (m :: tl)).mem_iff.mpr hx)
      · simp only [collect_fragments, if_pos rfl]
        rw [collect_process_append]
        have hcons : collect_process ((ref, m :: tl) :: l₂)
            = (⟨last.idx, last.date, last.sender,
                 ((sortBySeq (m :: tl)).map FragRec.text).flatten⟩
                 :: (collect_process l₂).1,
               (sortBySeq (m :: tl)).map FragRec.idx ++ (collect_process l₂).2) := by
          simp only [collect_process, heq]
        rw [hcons]
        simp
    · exfalso
      have hn : processSet (m :: tl) = none := by
        simp only [processSet, if_neg hlen]
      rw [hn] at h
      exact Option.noConfusion h
  · intro hnone
    simp only [collect_fragments, if_pos rfl]
    rw [collect_process_append, collect_process_append]
    have hcons : collect_process ((ref, m :: tl) :: l₂) = collect_process l₂ := by
      simp only [collect_process, hnone]
    rw [hcons]
    simp

def fragSeq1 : FragRec := ⟨12, 6, 7, [49], 9, 1, 3⟩

def fragSeq2 : FragRec := ⟨13, 7, 7, [50], 9, 2, 3⟩

def fragSeq3 : FragRec := ⟨11, 5, 7, [51], 9, 3, 3⟩

theorem collect_fragments_complete_sets_witness :
    ((processSet [fragSeq3, fragSeq1, fragSeq2]).isSome = true
      ↔ ([fragSeq3, fragSeq1, fragSeq2] : List FragRec).length = 3)
    ∧ (∀ x ∈ [fragSeq3, fragSeq1, fragSeq2], FragRec.idx x ∈ [12, 13, 11])
    ∧ (collect_fragments [(9, [fragSeq3, fragSeq1, fragSeq2])] none true).2
        = some ((collect_process []).1
                  ++ (⟨11, 5, 7, [49, 50, 51]⟩ : MsgRec) :: (collect_process []).1,
                (collect_process []).2 ++ ([12, 13, 11] ++ (collect_process []).2)) :=
  ⟨(collect_fragments_complete_sets [] [] 9 3 fragSeq3 [fragSeq1, fragSeq2]
      (by decide)).1,
   ((collect_fragments_complete_sets [] [] 9 3 fragSeq3 [fragSeq1, fragSeq2]
      (by decide)).2.1 ⟨11, 5, 7, [49, 50, 51]⟩ [12, 13, 11]
      (by decide)).2.2.2.2.2.1,
   ((collect_fragments_complete_sets [] [] 9 3 fragSeq3 [fragSeq1, fragSeq2]
      (by decide)).2.1 ⟨11, 5, 7, [49, 50, 51]⟩ [12, 13, 11]
      (by decide)).2.2.2.2.2.2⟩

/-- Claim C9: completeness of a fragment set is judged only against the
declared count of the first-ingested member: the set m :: tl is emitted
exactly when its member total equals the count field of m, and any two
sets agreeing on the first member's count and on the member total are
emitted or withheld together, whatever counts their later members
declare. -/
theorem processSet_first_count (m : FragRec) (tl : List FragRec) :
    ((processSet (m :: tl)).isSome = true ↔ tl.length + 1 = m.cnt)
    ∧ (∀ (m2 : FragRec) (tl2 : List FragRec), m2.cnt = m.cnt →
        tl2.length = tl.length →
        ((processSet (m2 :: tl2)).isSome = true
          ↔ (processSet (m :: tl)).isSome = true)) := by
  constructor
  · rw [processSet_isSome]
    simp only [List.length_cons]
  · intro m2 tl2 hcnt hlen
    rw [processSet_isSome, processSet_isSome, hcnt]
    simp only [List.length_cons, hlen]

def fragCnt99 : FragRec := ⟨13, 7, 7, [50], 9, 2, 99⟩

def fragHead2 : FragRec := ⟨12, 6, 7, [49], 9, 1, 2⟩

theorem processSet_first_count_witness :
    ((processSet [fragHead2, fragCnt99]).isSome = true ↔ 1 + 1 = 2)
    ∧ ((processSet [fragHead2, fragCnt99]).isSome = true
        ↔ (processSet [fragHead2, fragSeq2]).isSome = true) :=
  ⟨(processSet_first_count fragHead2 [fragCnt99]).1,
   (processSet_first_count fragHead2 [fragSeq2]).2 fragHead2 [fragCnt99]
     rfl rfl⟩

/-! ## Message sender (App.send)

The PDU codec is external: an outgoing message yields an ordered list of
chunks, each carrying its encoded payload and, for the modelled
transport, the bytes that would answer the continuation-prompt exchange
and the final-acknowledgment exchange for that chunk.  The source loop
issues the prompt command expecting the continuation character; only
when that succeeds does it write the payload and the submit byte and
wait for the acknowledgment, returning False on a failed
acknowledgment.  A chunk whose prompt fails is skipped without aborting
the loop, and the loop falls through to the success return. -/

def promptTerm : List Char := ['>']

structure Chunk where
  pdu : List Char
  promptStream : List Char
  ackStream : List Char
deriving DecidableEq

/-- Embeds the chunk loop of App.send together with its success return:
the Bool is the value App.send returns after the loop, and the list
collects the payloads actually written to the transport in order. -/
def send_pdus : List Chunk → Bool × List (List Char)
  | [] => (true, [])
  | c :: rest =>
    if (at_command promptTerm c.promptStream).success then
      if (at_command okTerm c.ackStream).success then
        ((send_pdus rest).1, c.pdu :: (send_pdus rest).2)
      else (false, [c.pdu])
    else send_pdus rest

def chunkBadPrompt : Chunk :=
  ⟨"0011AA".toList, "ERROR".toList, "".toList⟩

def chunkGood : Chunk :=
  ⟨"0022BB".toList, "\r\n> ".toList, "\r\nOK\r\n".toList⟩

/-- Claim C3 (code bug): on the concrete two-chunk message whose first
chunk never receives the continuation prompt, the source skips that
chunk, transmits the later chunk anyway, and returns overall success,
although the first chunk was neither transmitted nor acknowledged — the
loop lacks an abort branch for a failed prompt, contradicting the
specified abort-on-first-failure and success-only-if-all-acknowledged
behaviour. -/
theorem send_success_despite_failed_prompt :
    (at_command promptTerm (Chunk.promptStream chunkBadPrompt)).success = false
    ∧ (send_pdus [chunkBadPrompt, chunkGood]).1 = true
    ∧ Chunk.pdu chunkBadPrompt ∉ (send_pdus [chunkBadPrompt, chunkGood]).2
    ∧ Chunk.pdu chunkGood ∈ (send_pdus [chunkBadPrompt, chunkGood]).2 := by
  refine ⟨by decide, by decide, by decide, by decide⟩

/-! ## Receive operation (App.receive)

The two listings (already-read, then unread) come from the external
lister; each decoded message carries its slot, timestamp, sender, text
and optional fragment triple.  Timestamps are integers counted in hours
so that the age test message date < now - maxage hours is the integer
comparison date < now - maxage.  The result records the success flag,
the printed message list, the slots for which individual delete commands
are issued, and whether the delete-all command is issued instead. -/

structure FragInfo where
  ref : Nat
  seq : Nat
  cnt : Nat
deriving DecidableEq

structure InMsg where
  idx : Nat
  date : Int
  sender : Nat
  text : List Nat
  frag : Option FragInfo
deriving DecidableEq

def toFragRec (m : InMsg) (fi : FragInfo) : FragRec :=
  ⟨m.idx, m.date, m.sender, m.text, fi.ref, fi.seq, fi.cnt⟩

def toMsgRec (m : InMsg) : MsgRec := ⟨m.idx, m.date, m.sender, m.text⟩

structure RecvState where
  read_idx : List Nat
  fragments : List (Nat × List FragRec)
  messages : List MsgRec
deriving DecidableEq

/-- Embeds one iteration of the loop over the already-read listing: an
old enough message has its slot queued for deletion whether or not it is
a fragment, and a fragment-carrying message is ingested into the open
fragment map. -/
def recvReadStep (now maxage : Int) (st : RecvState) (m : InMsg) : RecvState :=
  let st1 :=
    if m.date < now - maxage then
      RecvState.mk (st.read_idx ++ [m.idx]) st.fragments st.messages
    else st
  match m.frag with
  | some fi =>
    RecvState.mk st1.read_idx (collect_ingest st1.fragments (toFragRec m fi))
      st1.messages
  | none => st1

/-- Embeds one iteration of the loop over the unread listing: a
fragment-carrying message is ingested, any other message is emitted
directly and its slot queued for deletion. -/
def recvUnreadStep (st : RecvState) (m : InMsg) : RecvState :=
  match m.frag with
  | some fi =>
    RecvState.mk st.read_idx (collect_ingest st.fragments (toFragRec m fi))
      st.messages
  | none =>
    RecvState.mk (st.read_idx ++ [m.idx]) st.fragments
      (st.messages ++ [toMsgRec m])

structure RecvResult where
  ok : Bool
  printed : List MsgRec
  deletedSlots : List Nat
  deletedAll : Bool
deriving DecidableEq

/-- Embeds App.receive: scan the already-read listing when it succeeded,
then, when the unread listing succeeded, scan it, process the fragment
map, print direct and reassembled messages, and delete either everything
(delete-all flag), nothing (preserve flag), or each queued slot followed
by each slot of a completed fragment set; a failed unread listing
reports failure.  (A failed already-read listing only skips its scan, as
in the source.) -/
def receive (now maxage : Int) (preserve deleteall : Bool) (readOk : Bool)
    (simRead : List InMsg) (unreadOk : Bool) (unread : List InMsg) : RecvResult :=
  let st0 : RecvState := ⟨[], [], []⟩
  let st1 := if readOk then simRead.foldl (recvReadStep now maxage) st0 else st0
  if unreadOk then
    let st2 := unread.foldl recvUnreadStep st1
    match (collect_fragments st2.fragments none true).2 with
    | some (longMsgs, fragIdx) =>
      ⟨true, st2.messages ++ longMsgs,
       if deleteall then [] else if preserve then [] else st2.read_idx ++ fragIdx,
       deleteall⟩
    | none => ⟨true, st2.messages, [], deleteall⟩
  else ⟨false, [], [], false⟩

theorem recvReadStep_extends (now maxage : Int) (st : RecvState) (m : InMsg) :
    ∃ t, (recvReadStep now maxage st m).read_idx = st.read_idx ++ t := by
  unfold recvReadStep
  by_cases h : m.date < now - maxage
  · rw [if_pos h]
    cases m.frag with
    | some fi => exact ⟨[m.idx], rfl⟩
    | none => exact ⟨[m.idx], rfl⟩
  · rw [if_neg h]
    cases m.frag with
    | some fi => exact ⟨[], by simp⟩
    | none => exact ⟨[], by simp⟩

theorem recvUnreadStep_extends (st : RecvState) (m : InMsg) :
    ∃ t, (recvUnreadStep st m).read_idx = st.read_idx ++ t := by
  unfold recvUnreadStep
  cases m.frag with
  | some fi => exact ⟨[], by simp⟩
  | none => exact ⟨[m.idx], rfl⟩

theorem foldl_recvReadStep_extends (now maxage : Int) (l : List InMsg) :
    ∀ st : RecvState,
      ∃ t, (l.foldl (recvReadStep now maxage) st).read_idx = st.read_idx ++ t := by
  induction l with
  | nil => exact fun st => ⟨[], by simp⟩
  | cons m rest ih =>
    intro st
    obtain ⟨t1, h1⟩ := recvReadStep_extends now maxage st m
    obtain ⟨t2, h2⟩ := ih (recvReadStep now maxage st m)
    exact ⟨t1 ++ t2, by simp [h2, h1]⟩

theorem foldl_recvUnreadStep_extends (l : List InMsg) :
    ∀ st : RecvState,
      ∃ t, (l.foldl recvUnreadStep st).read_idx = st.read_idx ++ t := by
  induction l with
  | nil => exact fun st => ⟨[], by simp⟩
  | cons m rest ih =>
    intro st
    obtain ⟨t1, h1⟩ := recvUnreadStep_extends st m
    obtain ⟨t2, h2⟩ := ih (recvUnreadStep st m)
    exact ⟨t1 ++ t2, by simp [h2, h1]⟩

theorem foldl_recvReadStep_mem (now maxage : Int) (l : List InMsg) :
    ∀ st : RecvState, ∀ m ∈ l, m.date < now - maxage →
      m.idx ∈ (l.foldl (recvReadStep now maxage) st).read_idx := by
  induction l with
  | nil => intro st m hm; exact absurd hm (List.not_mem_nil m)
  | cons x rest ih =>
    intro st m hm hdate
    rcases List.mem_cons.mp hm with rfl | hm'
    · obtain ⟨t, ht⟩ := foldl_recvReadStep_extends now maxage rest
        (recvReadStep now maxage st m)
      rw [List.foldl_cons, ht]
      have hstep : (recvReadStep now maxage st m).read_idx
          = st.read_idx ++ [m.idx] := by
        unfold recvReadStep
        rw [if_pos hdate]
        cases m.frag with
        | some fi => rfl
        | none => rfl
      rw [hstep]
      simp
    · rw [List.foldl_cons]
      exact ih (recvReadStep now maxage st x) m hm' hdate

/-- Claim C10: in a receive operation where both listings succeed and
neither the preserve flag nor the delete-all flag is set, every
already-read stored message older than the maximum fragment age has its
slot among the individually deleted slots — also when the message is a
fragment of a concatenated SMS whose set never completes. -/
theorem receive_deletes_stale_read (now maxage : Int) (simRead unread : List InMsg)
    (m : InMsg) (hm : m ∈ simRead) (hdate : m.date < now - maxage) :
    m.idx ∈ (receive now maxage false false true simRead true unread).deletedSlots := by
  have h1 : m.idx ∈ (simRead.foldl (recvReadStep now maxage) ⟨[], [], []⟩).read_idx :=
    foldl_recvReadStep_mem now maxage simRead ⟨[], [], []⟩ m hm hdate
  obtain ⟨t, ht⟩ := foldl_recvUnreadStep_extends unread
    (simRead.foldl (recvReadStep now maxage) ⟨[], [], []⟩)
  have h2 : m.idx ∈ (unread.foldl recvUnreadStep
      (simRead.foldl (recvReadStep now maxage) ⟨[], [], []⟩)).read_idx := by
    rw [ht]
    exact List.mem_append_left t h1
  simp only [receive, collect_fragments, if_true]
  simpa using Or.inl h2

def staleFragMsg : InMsg := ⟨3, 0, 7, [65], some ⟨9, 1, 3⟩⟩

theorem receive_deletes_stale_read_witness :
    InMsg.idx staleFragMsg ∈
      (receive 10 1 false false true [staleFragMsg] true []).deletedSlots :=
  receive_deletes_stale_read 10 1 [staleFragMsg] [] staleFragMsg
    (by decide) (by decide)

/-! ## Session lifecycle (App.run, App.cleanup) and exit status

App.run executes parse_args and setup, then wraps only the dispatch of
the selected operation in try/except/finally: the finally clause runs
cleanup exactly once for a normal return, a propagated exception, or a
caught interrupt, but parse_args and setup run before the try block, so
an exception or interrupt raised there - for instance the GPIO driver
module load inside setup, attempted after the serial port has already
been acquired - leaves the function with no cleanup at all.  The flow type
distinguishes these paths; cleanups counts executions of App.cleanup and
status is the returned exit code, none standing for a propagating
exception. -/

inductive CmdOutcome
  | ok (b : Bool)
  | interrupt
  | failure
deriving DecidableEq

inductive SessionFlow
  | setupRaises
  | dispatched (o : CmdOutcome)
deriving DecidableEq

structure RunExit where
  cleanups : Nat
  status : Option Nat
deriving DecidableEq

/-- Embeds the control flow of App.run.  setupRaises is any exception or
interrupt raised in parse_args or setup, before the try block: it
propagates without touching cleanup.  Once dispatch has been entered,
the finally clause runs cleanup exactly once on every path: a Boolean
return maps to exit status 0 or 1, a caught interrupt falls through with
the preset status 0, and any other exception propagates after
cleanup. -/
def app_run : SessionFlow → RunExit
  | SessionFlow.setupRaises => ⟨0, none⟩
  | SessionFlow.dispatched (CmdOutcome.ok b) => ⟨1, some (if b then 0 else 1)⟩
  | SessionFlow.dispatched CmdOutcome.interrupt => ⟨1, some 0⟩
  | SessionFlow.dispatched CmdOutcome.failure => ⟨1, none⟩

/-- Claim C7 counterexample: a failure raised during setup — after the
transport has been acquired, e.g. a failing GPIO import — is an exit
path of the session on which cleanup never runs, refuting that every
exit path runs cleanup exactly once. -/
theorem app_run_setup_failure_skips_cleanup :
    (app_run SessionFlow.setupRaises).cleanups = 0
    ∧ (app_run SessionFlow.setupRaises).status = none :=
  ⟨rfl, rfl⟩

/-- Claim C7 as amended: once the dispatch of the selected operation has
been entered, cleanup runs exactly once on every exit path — normal
completion, propagated failure, or interrupt. -/
theorem app_run_dispatched_cleanup (o : CmdOutcome) :
    (app_run (SessionFlow.dispatched o)).cleanups = 1 := by
  cases o <;> rfl

/-- Embeds the Python return value of a top-level operation: send,
receive and clear return a Boolean, while modem_info, at and an
uninterrupted monitor body return None. -/
inductive PyRet
  | none
  | bool (b : Bool)
deriving DecidableEq

/-- Embeds Python truthiness of the returned value: None is falsy. -/
def truthy : PyRet → Bool
  | PyRet.none => false
  | PyRet.bool b => b

/-- Embeds the status computation of App.run: 0 if the dispatched
command's return value is truthy else 1. -/
def run_status (r : PyRet) : Nat := if truthy r then 0 else 1

/-- Embeds App.modem_info: issue the six information commands, print
each raw response, and fall off the end of the function, returning
None whatever the exchange results were. -/
def modem_info (streams : List (List Char)) : List (List Char) × PyRet :=
  (streams.map fun s => (at_command okTerm s).response, PyRet.none)

/-- Embeds App.at: print the raw response of the requested exchange and
return None. -/
def at_op (back stream : List Char) : List Char × PyRet :=
  ((at_command back stream).response, PyRet.none)

def infoOkStream : List Char := "\r\nOK\r\n".toList

/-- Claim C8 counterexample: an info operation whose six AT exchanges
all succeed still exits with status 1, because modem_info returns None
and None is falsy in the status computation — refuting exit status 0 on
success for every operation. -/
theorem modem_info_success_exits_one :
    (∀ s ∈ List.replicate 6 infoOkStream, (at_command okTerm s).success = true)
    ∧ run_status (modem_info (List.replicate 6 infoOkStream)).2 = 1
    ∧ ¬ run_status (modem_info (List.replicate 6 infoOkStream)).2 = 0 :=
  ⟨by decide, rfl, by decide⟩

/-- Claim C8 as amended: operations returning a Boolean (send, recv,
clear) exit with status 0 exactly on success and 1 on failure — shown
both for the general Boolean return and for the send and receive
models — while the info and raw-AT operations return None and therefore
always exit with status 1, whatever their exchanges returned. -/
theorem run_status_spec :
    (∀ b : Bool, run_status (PyRet.bool b) = if b then 0 else 1)
    ∧ (∀ chunks : List Chunk,
        (run_status (PyRet.bool (send_pdus chunks).1) = 0
          ↔ (send_pdus chunks).1 = true))
    ∧ (∀ (now maxage : Int) (p d r u : Bool) (sr ur : List InMsg),
        (run_status (PyRet.bool (receive now maxage p d r sr u ur).ok) = 0
          ↔ (receive now maxage p d r sr u ur).ok = true))
    ∧ (∀ streams : List (List Char), run_status (modem_info streams).2 = 1)
    ∧ (∀ back stream : List Char, run_status (at_op back stream).2 = 1) := by
  refine ⟨fun b => rfl, ?_, ?_, fun streams => rfl, fun back stream => rfl⟩
  · intro chunks
    cases h : (send_pdus chunks).1 <;> simp [run_status, truthy, h]
  · intro now maxage p d r u sr ur
    cases h : (receive now maxage p d r sr u ur).ok <;> simp [run_status, truthy, h]

end Pisms
